import Mathlib

/-!
Shallow embedding of the byte-tape I/O module of this repository (src/io.rs).

The host channel exposes one-byte reads (getchar, a u32 cast to u8 by the
callers) and one-byte writes (putchar).  We model the unread input as a finite
list of natural numbers (the u32 values the host would supply; each read
truncates with mod 256, mirroring the "as u8" casts in the source) and the
emitted output as the list of bytes written so far.  A read operation returns
none when it would have to read past the modelled input: the real channel has
no end-of-stream signal, so that case blocks forever in the source.

The fallible operations of the source return Result; this is mirrored with an
Except layer inside the Option, so that the fact that the low-level transfers
never construct an error value is a provable statement rather than a modelling
choice.
-/

namespace Tape

/-- The error values the source distinguishes.  The source returns boxed
std::io errors with distinct messages; only which branch produced the error
matters here.  headerDecode covers both branches of the framed read header
(bytes not valid UTF-8, and text not parsing as usize): no claim separates
them, and both reject exactly the byte lists rejected by parseUsize below. -/
inductive IOError where
  | headerRead
  | headerDecode
  | bodyRead
  | decode
  | encode
  | utf8
  | parseFail
  deriving DecidableEq

/-- One call to getchar, truncated to a byte as in the source casts: consume
the next input value; none when the modelled input is exhausted (the real call
would block). -/
def getcharByte : List Nat → Option (Nat × List Nat)
  | [] => none
  | b :: rest => some (b % 256, rest)

/-- read_until from the source: keep reading bytes until one equals c; the
sentinel byte is consumed but not appended to the result.  The source loops
forever if the sentinel never arrives, which is the none case here. -/
def read_until (c : Nat) : List Nat → Option (Except IOError (List Nat) × List Nat)
  | [] => none
  | b :: rest =>
    if b % 256 = c then some (Except.ok [], rest)
    else
      match read_until c rest with
      | none => none
      | some (Except.ok acc, rem) => some (Except.ok (b % 256 :: acc), rem)
      | some (Except.error e, rem) => some (Except.error e, rem)

/-- read_n from the source: read exactly n bytes, in order. -/
def read_n : Nat → List Nat → Option (Except IOError (List Nat) × List Nat)
  | 0, input => some (Except.ok [], input)
  | n + 1, input =>
    match getcharByte input with
    | none => none
    | some (b, rest) =>
      match read_n n rest with
      | none => none
      | some (Except.ok acc, rem) => some (Except.ok (b :: acc), rem)
      | some (Except.error e, rem) => some (Except.error e, rem)

/-- One call to putchar: emit one byte at the end of the output tape. -/
def putcharOut (c : Nat) (out : List Nat) : List Nat := out ++ [c]

/-- write_vec from the source: emit every element of the buffer with putchar,
in order, and return Ok. -/
def write_vec (v : List Nat) (out : List Nat) : Except IOError Unit × List Nat :=
  (Except.ok (), List.foldl (fun acc c => putcharOut c acc) out v)

/-- Little-endian decimal digits of n, with explicit fuel so the recursion is
structural; fuel n is always enough since the argument strictly decreases. -/
def decDigitsF : Nat → Nat → List Nat
  | 0, _ => []
  | fuel + 1, n => if n = 0 then [] else n % 10 :: decDigitsF fuel (n / 10)

/-- Little-endian decimal digits of n (empty for 0). -/
def decDigits (n : Nat) : List Nat := decDigitsF n n

/-- The ASCII bytes of the decimal rendering of n, as produced by the usize
to_string call in the source write path: most significant digit first, no
leading zeros, and 0 rendered as the single byte 48. -/
def decRepr (n : Nat) : List Nat :=
  if n = 0 then [48] else List.map (fun d => d + 48) (List.reverse (decDigits n))

/-- Value of a little-endian digit list. -/
def lval : List Nat → Nat
  | [] => 0
  | d :: t => d + 10 * lval t

/-- Numeric value of a big-endian ASCII digit string. -/
def decValue (ds : List Nat) : Nat := List.foldl (fun a d => 10 * a + (d - 48)) 0 ds

/-- One past the largest usize value.  The bound is target dependent (the
source parses into usize); no claim depends on the particular width. -/
def usizeSize : Nat := 2 ^ 64

/-- Value of a nonempty all-ASCII-digit byte list, none otherwise. -/
def digitsValue (cs : List Nat) : Option Nat :=
  if cs = [] then none
  else if ∀ c ∈ cs, 48 ≤ c ∧ c ≤ 57 then some (decValue cs) else none

/-- Digit-string part of the usize text grammar, with the overflow check of
the source parser.  The source checks overflow digit by digit; since the
accumulator is nondecreasing, that is equivalent to the final-value check. -/
def parseDigits (bs : List Nat) : Option Nat :=
  match digitsValue bs with
  | none => none
  | some v => if v < usizeSize then some v else none

/-- The composite of str::from_utf8 and str::parse::<usize> from the framed
read path of the source: an optional leading plus sign, then one or more
ASCII decimal digits whose value fits in usize.  Byte lists that are not
valid UTF-8 contain a byte that is neither the sign nor a digit, so they are
rejected here exactly as in the source (by the other error branch). -/
def parseUsize (bs : List Nat) : Option Nat :=
  match bs with
  | [] => none
  | b :: rest => if b = 43 then parseDigits rest else parseDigits (b :: rest)

/-- Largest i32 value. -/
def i32Max : Nat := 2147483647

/-- str::parse::<i32> on a list of code points: optional sign, ASCII digits,
two's-complement bounds checked as in the source parser. -/
def parseI32 (cs : List Nat) : Option Int :=
  match cs with
  | [] => none
  | c :: rest =>
    if c = 43 then
      match digitsValue rest with
      | none => none
      | some v => if v ≤ i32Max then some (Int.ofNat v) else none
    else if c = 45 then
      match digitsValue rest with
      | none => none
      | some v => if v ≤ i32Max + 1 then some (- Int.ofNat v) else none
    else
      match digitsValue (c :: rest) with
      | none => none
      | some v => if v ≤ i32Max then some (Int.ofNat v) else none

/-- UTF-8 continuation byte. -/
def isCont (b : Nat) : Bool := decide (128 ≤ b ∧ b ≤ 191)

/-- The validating UTF-8 decoder of str::from_utf8: bytes to code points,
rejecting overlong forms, surrogates and out-of-range sequences. -/
def utf8Decode : List Nat → Option (List Nat)
  | [] => some []
  | b :: rest =>
    if b ≤ 127 then
      match utf8Decode rest with
      | none => none
      | some cs => some (b :: cs)
    else if b < 194 then none
    else if b ≤ 223 then
      match rest with
      | b1 :: rest2 =>
        if isCont b1 then
          match utf8Decode rest2 with
          | none => none
          | some cs => some (((b - 192) * 64 + (b1 - 128)) :: cs)
        else none
      | [] => none
    else if b ≤ 239 then
      match rest with
      | b1 :: b2 :: rest2 =>
        if (if b = 224 then decide (160 ≤ b1 ∧ b1 ≤ 191)
            else if b = 237 then decide (128 ≤ b1 ∧ b1 ≤ 159)
            else isCont b1) && isCont b2 then
          match utf8Decode rest2 with
          | none => none
          | some cs => some (((b - 224) * 4096 + (b1 - 128) * 64 + (b2 - 128)) :: cs)
        else none
      | _ => none
    else if b ≤ 244 then
      match rest with
      | b1 :: b2 :: b3 :: rest2 =>
        if (if b = 240 then decide (144 ≤ b1 ∧ b1 ≤ 191)
            else if b = 244 then decide (128 ≤ b1 ∧ b1 ≤ 143)
            else isCont b1) && isCont b2 && isCont b3 then
          match utf8Decode rest2 with
          | none => none
          | some cs => some (((b - 240) * 262144 + (b1 - 128) * 4096 + (b2 - 128) * 64 + (b3 - 128)) :: cs)
        else none
      | _ => none
    else none

/-- The Unicode White_Space code points, the set trimmed by str::trim in the
source (char::is_whitespace). -/
def isWhitespaceChar (c : Nat) : Bool :=
  decide (c = 9 ∨ c = 10 ∨ c = 11 ∨ c = 12 ∨ c = 13 ∨ c = 32 ∨ c = 133 ∨ c = 160 ∨
    c = 5760 ∨ (8192 ≤ c ∧ c ≤ 8202) ∨ c = 8232 ∨ c = 8233 ∨ c = 8239 ∨ c = 8287 ∨ c = 12288)

/-- str::trim from the source read_line: drop leading and trailing Unicode
whitespace code points. -/
def trim (cs : List Nat) : List Nat :=
  List.reverse (List.dropWhile isWhitespaceChar
    (List.reverse (List.dropWhile isWhitespaceChar cs)))

/-- What read_line does with the extracted line: UTF-8 decode, trim, parse;
each failure mapped to its error as in the source. -/
def lineResult {T : Type} (p : List Nat → Option T) (line : List Nat) : Except IOError T :=
  match utf8Decode line with
  | none => Except.error IOError.utf8
  | some cs =>
    match p (trim cs) with
    | none => Except.error IOError.parseFail
    | some v => Except.ok v

/-- read_line from the source, with the text parser of the target type passed
in (the source is generic over T: FromStr): read to the first newline, decode
as UTF-8, trim, parse.  A read_until error would propagate unchanged. -/
def read_line {T : Type} (p : List Nat → Option T) (input : List Nat) :
    Option (Except IOError T × List Nat) :=
  match read_until 10 input with
  | none => none
  | some (Except.error e, rem) => some (Except.error e, rem)
  | some (Except.ok bytes, rem) =>
    match utf8Decode bytes with
    | none => some (Except.error IOError.utf8, rem)
    | some cs =>
      match p (trim cs) with
      | none => some (Except.error IOError.parseFail, rem)
      | some v => some (Except.ok v, rem)

/-- The framed read of the source, with the codec decoder passed in (the
source uses the external bincode codec there): read the header line, parse it
as usize, read that many bytes, decode them. -/
def read {T : Type} (dec : List Nat → Option T) (input : List Nat) :
    Option (Except IOError T × List Nat) :=
  match read_until 10 input with
  | none => none
  | some (Except.error _, rem) => some (Except.error IOError.headerRead, rem)
  | some (Except.ok header, rem) =>
    match parseUsize header with
    | none => some (Except.error IOError.headerDecode, rem)
    | some n =>
      match read_n n rem with
      | none => none
      | some (Except.error _, rem2) => some (Except.error IOError.bodyRead, rem2)
      | some (Except.ok body, rem2) =>
        match dec body with
        | none => some (Except.error IOError.decode, rem2)
        | some v => some (Except.ok v, rem2)

/-- The framed write of the source, with the codec encoder passed in: encode
the value, emit the decimal byte count and a newline, then emit the body. -/
def write {T : Type} (enc : T → Option (List Nat)) (v : T) (out : List Nat) :
    Except IOError Unit × List Nat :=
  match enc v with
  | none => (Except.error IOError.encode, out)
  | some bytes =>
    match write_vec (decRepr (List.length bytes) ++ [10]) out with
    | (Except.error e, out1) => (Except.error e, out1)
    | (Except.ok _, out1) =>
      match write_vec bytes out1 with
      | (Except.error e, out2) => (Except.error e, out2)
      | (Except.ok _, out2) => (Except.ok (), out2)

/-- Modelled from the spec: the external codec is outside this repository
(the source delegates to the bincode crate); per the spec scenario the codec
encodes a 32-bit integer as its 4-byte big-endian representation. -/
def encU32 (n : Nat) : Option (List Nat) :=
  some [n / 16777216 % 256, n / 65536 % 256, n / 256 % 256, n % 256]

/-- Modelled from the spec: the decoder matching encU32, the exact inverse on
4-byte inputs, failing on any other length. -/
def decU32 : List Nat → Option Nat
  | [b0, b1, b2, b3] => some (((b0 * 256 + b1) * 256 + b2) * 256 + b3)
  | _ => none

/-- The result the framed read produces from a body once the header has been
consumed: decode, or the decode error. -/
def bodyResult {T : Type} (dec : List Nat → Option T) (body : List Nat) : Except IOError T :=
  match dec body with
  | none => Except.error IOError.decode
  | some v => Except.ok v

/-- Whether an Except value is ok. -/
def isOkE {E A : Type} : Except E A → Bool
  | Except.ok _ => true
  | Except.error _ => false

/-- Claim-side definition, following the claim wording rather than the
source: the ASCII whitespace bytes, read generously as the full C isspace
set so the reading of the claim is as strong as possible. -/
def isAsciiWsChar (c : Nat) : Bool :=
  decide (c = 9 ∨ c = 10 ∨ c = 11 ∨ c = 12 ∨ c = 13 ∨ c = 32)

/-- Claim-side definition: trim only ASCII whitespace. -/
def asciiTrim (cs : List Nat) : List Nat :=
  List.reverse (List.dropWhile isAsciiWsChar
    (List.reverse (List.dropWhile isAsciiWsChar cs)))

/-- Claim-side pipeline for read_line per the claim wording: decode the line
as UTF-8, trim only ASCII whitespace, then parse. -/
def specLineValue {T : Type} (p : List Nat → Option T) (line : List Nat) : Option T :=
  match utf8Decode line with
  | none => none
  | some cs => p (asciiTrim cs)

/-- Claim-side predicate: the line is a well-formed non-negative decimal
integer, one or more ASCII digits. -/
def specWellFormedDecimal (bs : List Nat) : Bool :=
  !List.isEmpty bs && List.all bs (fun b => decide (48 ≤ b ∧ b ≤ 57))

theorem foldl_putcharOut (v : List Nat) : ∀ out : List Nat,
    List.foldl (fun acc c => putcharOut c acc) out v = out ++ v := by
  induction v with
  | nil => intro out; simp
  | cons c t ih =>
    intro out
    rw [List.foldl_cons, ih]
    simp [putcharOut]

theorem write_vec_eq (v out : List Nat) : write_vec v out = (Except.ok (), out ++ v) := by
  unfold write_vec
  rw [foldl_putcharOut]

theorem read_until_append (c : Nat) (pre rest : List Nat) (hc : c < 256)
    (hb : ∀ b ∈ pre, b < 256) (hnc : c ∉ pre) :
    read_until c (pre ++ c :: rest) = some (Except.ok pre, rest) := by
  induction pre with
  | nil => simp [read_until, Nat.mod_eq_of_lt hc]
  | cons b t ih =>
    have hb0 : b < 256 := hb b (List.mem_cons_self b t)
    have hbc : ¬(b = c) := by
      intro h
      apply hnc
      rw [h]
      exact List.mem_cons_self c t
    have ht : ∀ x ∈ t, x < 256 := fun x hx => hb x (List.mem_cons_of_mem b hx)
    have hnt : c ∉ t := fun hx => hnc (List.mem_cons_of_mem b hx)
    simp [read_until, Nat.mod_eq_of_lt hb0, hbc, ih ht hnt]

theorem read_n_split (bs rest : List Nat) (hb : ∀ b ∈ bs, b < 256) :
    read_n (List.length bs) (bs ++ rest) = some (Except.ok bs, rest) := by
  induction bs with
  | nil => simp [read_n]
  | cons b t ih =>
    have hb0 : b < 256 := hb b (List.mem_cons_self b t)
    have ht : ∀ x ∈ t, x < 256 := fun x hx => hb x (List.mem_cons_of_mem b hx)
    simp [read_n, getcharByte, Nat.mod_eq_of_lt hb0, ih ht]

theorem read_n_take (n : Nat) : ∀ input : List Nat, n ≤ List.length input →
    read_n n input
      = some (Except.ok (List.map (fun b => b % 256) (List.take n input)), List.drop n input) := by
  induction n with
  | zero => intro input h; simp [read_n]
  | succ m ih =>
    intro input h
    cases input with
    | nil => simp at h
    | cons b t =>
      have hm : m ≤ List.length t := by simp at h; omega
      simp [read_n, getcharByte, ih t hm]

theorem decDigitsF_congr : ∀ f1 f2 n : Nat, n ≤ f1 → n ≤ f2 → decDigitsF f1 n = decDigitsF f2 n := by
  intro f1
  induction f1 with
  | zero =>
    intro f2 n h1 h2
    have hn : n = 0 := Nat.le_zero.mp h1
    subst hn
    cases f2 <;> simp [decDigitsF]
  | succ a ih =>
    intro f2 n h1 h2
    cases f2 with
    | zero =>
      have hn : n = 0 := Nat.le_zero.mp h2
      subst hn
      simp [decDigitsF]
    | succ b =>
      by_cases hn : n = 0
      · subst hn; simp [decDigitsF]
      · have hdiv : n / 10 < n := Nat.div_lt_self (Nat.pos_of_ne_zero hn) (by omega)
        have ha : n / 10 ≤ a := by omega
        have hbb : n / 10 ≤ b := by omega
        simp [decDigitsF, hn, ih b (n / 10) ha hbb]

theorem decDigits_eq_cons (n : Nat) (h : n ≠ 0) :
    decDigits n = n % 10 :: decDigits (n / 10) := by
  unfold decDigits
  cases n with
  | zero => exact absurd rfl h
  | succ m =>
    have hdiv : (m + 1) / 10 ≤ m := by
      have : (m + 1) / 10 < m + 1 := Nat.div_lt_self (Nat.succ_pos m) (by omega)
      omega
    simp only [decDigitsF, Nat.succ_ne_zero, if_false]
    rw [decDigitsF_congr m ((m + 1) / 10) ((m + 1) / 10) hdiv (Nat.le_refl _)]

theorem decDigits_lt (n : Nat) : ∀ d ∈ decDigits n, d < 10 := by
  induction n using Nat.strong_induction_on with
  | _ n ih =>
    by_cases h : n = 0
    · subst h; intro d hd; simp [decDigits, decDigitsF] at hd
    · rw [decDigits_eq_cons n h]
      intro d hd
      rcases List.mem_cons.mp hd with h1 | h2
      · subst h1; exact Nat.mod_lt n (by omega)
      · exact ih (n / 10) (Nat.div_lt_self (Nat.pos_of_ne_zero h) (by omega)) d h2

theorem lval_decDigits (n : Nat) : lval (decDigits n) = n := by
  induction n using Nat.strong_induction_on with
  | _ n ih =>
    by_cases h : n = 0
    · subst h; simp [decDigits, decDigitsF, lval]
    · rw [decDigits_eq_cons n h]
      have hdiv : n / 10 < n := Nat.div_lt_self (Nat.pos_of_ne_zero h) (by omega)
      simp [lval, ih (n / 10) hdiv]
      omega

theorem decDigits_rev_head : ∀ n : Nat, n ≠ 0 →
    ∃ d t, List.reverse (decDigits n) = d :: t ∧ d ≠ 0 ∧ d < 10 := by
  intro n
  induction n using Nat.strong_induction_on with
  | _ n ih =>
    intro h
    have hcons := decDigits_eq_cons n h
    by_cases hq : n / 10 = 0
    · have hnil : decDigits (n / 10) = [] := by rw [hq]; rfl
      rw [hcons, hnil]
      refine ⟨n % 10, [], by simp, ?_, Nat.mod_lt n (by omega)⟩
      omega
    · have hdiv : n / 10 < n := Nat.div_lt_self (Nat.pos_of_ne_zero h) (by omega)
      obtain ⟨d, t, hrev, hd0, hd10⟩ := ih (n / 10) hdiv hq
      refine ⟨d, t ++ [n % 10], ?_, hd0, hd10⟩
      rw [hcons]
      simp [hrev]

theorem decRepr_head (n : Nat) (h : n ≠ 0) :
    ∃ d t, decRepr n = (d + 48) :: t ∧ d ≠ 0 ∧ d < 10 := by
  obtain ⟨d, t, hrev, hd0, hd10⟩ := decDigits_rev_head n h
  refine ⟨d, List.map (fun x => x + 48) t, ?_, hd0, hd10⟩
  simp [decRepr, h, hrev]

theorem decRepr_mem (n : Nat) : ∀ d ∈ decRepr n, 48 ≤ d ∧ d ≤ 57 := by
  intro d hd
  by_cases h : n = 0
  · subst h
    simp [decRepr] at hd
    omega
  · simp [decRepr, h] at hd
    obtain ⟨x, hx, hxd⟩ := hd
    have hx10 : x < 10 := decDigits_lt n x hx
    omega

theorem decRepr_ne_nil (n : Nat) : decRepr n ≠ [] := by
  by_cases h : n = 0
  · subst h; simp [decRepr]
  · obtain ⟨d, t, he, _, _⟩ := decRepr_head n h
    simp [he]

theorem foldl_decValue (l : List Nat) : ∀ a : Nat,
    List.foldl (fun x d => 10 * x + (d - 48)) a (List.map (fun d => d + 48) (List.reverse l))
      = a * 10 ^ List.length l + lval l := by
  induction l with
  | nil => intro a; simp [lval]
  | cons d t ih =>
    intro a
    simp only [List.reverse_cons, List.map_append, List.foldl_append, ih]
    simp [lval]
    ring

theorem decValue_decRepr (n : Nat) : decValue (decRepr n) = n := by
  by_cases h : n = 0
  · subst h; simp [decRepr, decValue]
  · rw [decValue, decRepr, if_neg h, foldl_decValue]
    simp [lval_decDigits]

theorem parseUsize_decRepr (n : Nat) (h : n < usizeSize) : parseUsize (decRepr n) = some n := by
  have hmem := decRepr_mem n
  have hval := decValue_decRepr n
  have hne := decRepr_ne_nil n
  cases hrep : decRepr n with
  | nil => exact absurd hrep hne
  | cons c t =>
    rw [hrep] at hval
    have hc : 48 ≤ c ∧ c ≤ 57 := by
      apply hmem
      rw [hrep]
      exact List.mem_cons_self c t
    have hc43 : ¬(c = 43) := by omega
    have hall : ∀ x ∈ c :: t, 48 ≤ x ∧ x ≤ 57 := by
      intro x hx
      apply hmem
      rw [hrep]
      exact hx
    rw [parseUsize, if_neg hc43, parseDigits, digitsValue,
      if_neg (List.cons_ne_nil c t), if_pos hall, hval]
    simp [h]

theorem write_eq {T : Type} (enc : T → Option (List Nat)) (v : T) (bytes out : List Nat)
    (henc : enc v = some bytes) :
    write enc v out = (Except.ok (), (out ++ (decRepr (List.length bytes) ++ [10])) ++ bytes) := by
  simp [write, henc, write_vec_eq]

theorem read_frame_eq {T : Type} (dec : List Nat → Option T) (header body rest : List Nat)
    (n : Nat) (hh : ∀ b ∈ header, b < 256) (hnl : 10 ∉ header)
    (hp : parseUsize header = some n) (hlen : List.length body = n)
    (hb : ∀ b ∈ body, b < 256) :
    read dec (header ++ 10 :: (body ++ rest)) = some (bodyResult dec body, rest) := by
  subst hlen
  have h1 := read_until_append 10 header (body ++ rest) (by omega) hh hnl
  have h2 := read_n_split body rest hb
  rw [read, h1]
  simp only [hp]
  rw [h2]
  cases hdec : dec body <;> simp [bodyResult, hdec]

theorem read_header_fail_eq {T : Type} (dec : List Nat → Option T) (line rest : List Nat)
    (hh : ∀ b ∈ line, b < 256) (hnl : 10 ∉ line) (hp : parseUsize line = none) :
    read dec (line ++ 10 :: rest) = some (Except.error IOError.headerDecode, rest) := by
  have h1 := read_until_append 10 line rest (by omega) hh hnl
  rw [read, h1]
  simp [hp]

theorem read_until_ok (c : Nat) : ∀ (input : List Nat) (res : Except IOError (List Nat))
    (rem : List Nat), read_until c input = some (res, rem) → isOkE res = true := by
  intro input
  induction input with
  | nil =>
    intro res rem h
    simp [read_until] at h
  | cons b t ih =>
    intro res rem h
    by_cases hbc : b % 256 = c
    · simp [read_until, hbc] at h
      rw [← h.1]
      rfl
    · rw [read_until, if_neg hbc] at h
      cases hr : read_until c t with
      | none => rw [hr] at h; simp at h
      | some pr =>
        obtain ⟨r2, rem2⟩ := pr
        cases r2 with
        | ok acc =>
          rw [hr] at h
          simp at h
          rw [← h.1]
          rfl
        | error e =>
          have := ih (Except.error e) rem2 hr
          simp [isOkE] at this

theorem read_n_ok : ∀ (n : Nat) (input : List Nat) (res : Except IOError (List Nat))
    (rem : List Nat), read_n n input = some (res, rem) → isOkE res = true := by
  intro n
  induction n with
  | zero =>
    intro input res rem h
    simp [read_n] at h
    rw [← h.1]
    rfl
  | succ m ih =>
    intro input res rem h
    cases input with
    | nil => simp [read_n, getcharByte] at h
    | cons b t =>
      rw [read_n] at h
      simp only [getcharByte] at h
      cases hr : read_n m t with
      | none => rw [hr] at h; simp at h
      | some pr =>
        obtain ⟨r2, rem2⟩ := pr
        cases r2 with
        | ok acc =>
          rw [hr] at h
          simp at h
          rw [← h.1]
          rfl
        | error e =>
          have := ih t (Except.error e) rem2 hr
          simp [isOkE] at this

theorem read_line_frame {T : Type} (p : List Nat → Option T) (line rest : List Nat)
    (hh : ∀ b ∈ line, b < 256) (hnl : 10 ∉ line) :
    read_line p (line ++ 10 :: rest) = some (lineResult p line, rest) := by
  have h1 := read_until_append 10 line rest (by omega) hh hnl
  rw [read_line, h1]
  cases hu : utf8Decode line with
  | none => simp [hu, lineResult]
  | some cs =>
    cases hp : p (trim cs) <;> simp [hu, hp, lineResult]

/-- C1: round trip through the framed protocol: for every value the codec can
encode (encoder succeeds, bodies are bytes of usize length, decoder inverts
the encoder on it), writing the value and reading back exactly the bytes
emitted yields ok of the original value, consuming nothing further. -/
theorem write_read_round_trip {T : Type} (enc : T → Option (List Nat))
    (dec : List Nat → Option T) (v : T) (bytes rest : List Nat)
    (henc : enc v = some bytes) (hlen : List.length bytes < usizeSize)
    (hb : ∀ b ∈ bytes, b < 256) (hdec : dec bytes = some v) :
    read dec ((write enc v []).2 ++ rest) = some (Except.ok v, rest) := by
  have hw := write_eq enc v bytes [] henc
  have h2 : ((write enc v []).2 ++ rest)
      = decRepr (List.length bytes) ++ 10 :: (bytes ++ rest) := by
    rw [hw]
    simp
  rw [h2]
  have hh : ∀ b ∈ decRepr (List.length bytes), b < 256 := by
    intro b hbm
    have := decRepr_mem (List.length bytes) b hbm
    omega
  have hnl : 10 ∉ decRepr (List.length bytes) := by
    intro hbm
    have := decRepr_mem (List.length bytes) 10 hbm
    omega
  rw [read_frame_eq dec (decRepr (List.length bytes)) bytes rest (List.length bytes)
    hh hnl (parseUsize_decRepr (List.length bytes) hlen) rfl hb]
  simp [bodyResult, hdec]

/-- C1 witness: the round trip at the 4-byte big-endian codec and the value 42. -/
theorem write_read_round_trip_witness :
    read decU32 ((write encU32 42 []).2 ++ [9]) = some (Except.ok 42, [9]) :=
  write_read_round_trip encU32 decU32 42 [0, 0, 0, 42] [9] rfl (by decide) (by decide) rfl

/-- C2: for every encodable value, write emits the decimal rendering of the
body length followed by one newline and then the body; the rendering consists
of ASCII digits whose numeric value is exactly the body length, its leading
byte is the zero digit only for an empty body, and a zero length renders as
the single digit 0. -/
theorem write_header_invariant {T : Type} (enc : T → Option (List Nat)) (v : T)
    (bytes out : List Nat) (henc : enc v = some bytes) :
    write enc v out = (Except.ok (), (out ++ (decRepr (List.length bytes) ++ [10])) ++ bytes)
    ∧ decValue (decRepr (List.length bytes)) = List.length bytes
    ∧ (List.head? (decRepr (List.length bytes)) = some 48 ↔ List.length bytes = 0)
    ∧ decRepr 0 = [48]
    ∧ (∀ d ∈ decRepr (List.length bytes), 48 ≤ d ∧ d ≤ 57) := by
  refine ⟨write_eq enc v bytes out henc, decValue_decRepr (List.length bytes), ?_, rfl,
    decRepr_mem (List.length bytes)⟩
  constructor
  · intro hhead
    by_contra hne
    obtain ⟨d, t, he, hd0, _⟩ := decRepr_head (List.length bytes) hne
    rw [he] at hhead
    simp at hhead
    omega
  · intro h0
    rw [h0]
    rfl

/-- C2 witness: the header for the 4-byte body of the integer 42. -/
theorem write_header_invariant_witness :
    write encU32 42 [7] = (Except.ok (), [7, 52, 10, 0, 0, 0, 42])
    ∧ decValue (decRepr 4) = 4 := by
  have h := write_header_invariant encU32 42 [0, 0, 0, 42] [7] rfl
  exact ⟨h.1, h.2.1⟩

/-- C3: with the 4-byte big-endian codec of the spec scenario, writing the
integer 42 emits exactly the bytes 52 10 0 0 0 42 (the text 4, a newline, and
00 00 00 2A), and reading those bytes back yields 42 with nothing left over. -/
theorem write_read_int42 :
    write encU32 42 [] = (Except.ok (), [52, 10, 0, 0, 0, 42])
    ∧ read decU32 [52, 10, 0, 0, 0, 42] = some (Except.ok 42, []) :=
  ⟨rfl, rfl⟩

/-- C4 counterexample: the header line with bytes 43 52 (the text +4) is not a
well-formed non-negative decimal integer, yet read does not fail on it: it
accepts the header, consumes four body bytes beyond the header line and
returns the decoded value. -/
theorem read_malformed_header_counterexample :
    specWellFormedDecimal [43, 52] = false
    ∧ read decU32 [43, 52, 10, 0, 0, 0, 42, 99] = some (Except.ok 42, [99]) :=
  ⟨rfl, rfl⟩

/-- C4 (amended): for every input stream whose first line is rejected by the
usize text parser (optional plus sign, then decimal digits fitting in usize),
read returns the header-decode error and consumes exactly the header line and
its newline, nothing further. -/
theorem read_malformed_header_atomic {T : Type} (dec : List Nat → Option T)
    (line rest : List Nat) (hh : ∀ b ∈ line, b < 256) (hnl : 10 ∉ line)
    (hp : parseUsize line = none) :
    read dec (line ++ 10 :: rest) = some (Except.error IOError.headerDecode, rest) :=
  read_header_fail_eq dec line rest hh hnl hp

/-- C4 witness: the malformed header 12x leaves the two body bytes unread. -/
theorem read_malformed_header_atomic_witness :
    read decU32 [49, 50, 120, 10, 7, 8] = some (Except.error IOError.headerDecode, [7, 8]) :=
  read_malformed_header_atomic decU32 [49, 50, 120] [7, 8] (by decide) (by decide) rfl

/-- C5: on an input whose bytes before the first sentinel occurrence are pre,
read_until returns exactly pre, does not include the sentinel, and consumes
exactly one sentinel instance, leaving everything after it unread. -/
theorem read_until_sentinel_spec (c : Nat) (pre rest : List Nat) (hc : c < 256)
    (hb : ∀ b ∈ pre, b < 256) (hnc : c ∉ pre) :
    read_until c (pre ++ c :: rest) = some (Except.ok pre, rest) ∧ c ∉ pre :=
  ⟨read_until_append c pre rest hc hb hnc, hnc⟩

/-- C5 witness: a second sentinel right after the first stays unconsumed. -/
theorem read_until_sentinel_spec_witness :
    read_until 10 [104, 105, 10, 10, 120] = some (Except.ok [104, 105], [10, 120]) :=
  (read_until_sentinel_spec 10 [104, 105] [10, 120] (by decide) (by decide) (by decide)).1

/-- C6: whenever the channel supplies at least n bytes, read_n returns ok with
the first n input bytes in order, a sequence of length exactly n, leaving the
rest of the input unread. -/
theorem read_n_length_spec (n : Nat) (input : List Nat) (h : n ≤ List.length input) :
    read_n n input
      = some (Except.ok (List.map (fun b => b % 256) (List.take n input)), List.drop n input)
    ∧ List.length (List.map (fun b => b % 256) (List.take n input)) = n := by
  refine ⟨read_n_take n input h, ?_⟩
  simp [List.length_take]
  omega

/-- C6 witness: reading two of three bytes. -/
theorem read_n_length_spec_witness :
    read_n 2 [1, 2, 3] = some (Except.ok [1, 2], [3]) :=
  (read_n_length_spec 2 [1, 2, 3] (by decide)).1

/-- C7: write emits the whole header (digits then the newline) before any body
byte, so the output tape extends by header then body, and write_vec emits its
buffer bytes in sequence order after what was already on the tape. -/
theorem write_ordering {T : Type} (enc : T → Option (List Nat)) (v : T)
    (bytes out : List Nat) (henc : enc v = some bytes) :
    write enc v out = (Except.ok (), out ++ ((decRepr (List.length bytes) ++ [10]) ++ bytes))
    ∧ (∀ buf start : List Nat, write_vec buf start = (Except.ok (), start ++ buf)) := by
  constructor
  · rw [write_eq enc v bytes out henc]
    simp
  · intro buf start
    exact write_vec_eq buf start

/-- C7 witness: header 52 10 precedes the body bytes on the output tape. -/
theorem write_ordering_witness :
    write encU32 42 [3] = (Except.ok (), [3, 52, 10, 0, 0, 0, 42])
    ∧ write_vec [1, 2] [0] = (Except.ok (), [0, 1, 2]) :=
  ⟨(write_ordering encU32 42 [0, 0, 0, 42] [3] rfl).1,
   (write_ordering encU32 42 [0, 0, 0, 42] [3] rfl).2 [1, 2] [0]⟩

/-- C8 counterexample: on the line whose bytes are 194 160 49 55 (the no-break
space U+00A0 followed by the text 17), read_line returns ok 17, because the
source trims all Unicode whitespace; the pipeline the claim describes, which
trims only ASCII whitespace before parsing, fails to parse that line. -/
theorem read_line_unicode_trim_counterexample :
    read_line parseI32 [194, 160, 49, 55, 10] = some (Except.ok 17, [])
    ∧ specLineValue parseI32 [194, 160, 49, 55] = none :=
  ⟨rfl, rfl⟩

/-- C8 (amended): for every input beginning with a newline-terminated line,
read_line consumes exactly that line and its newline, decodes the line as
UTF-8, trims leading and trailing Unicode whitespace (a superset of ASCII
whitespace), and parses the trimmed text with the type's parser. -/
theorem read_line_spec {T : Type} (p : List Nat → Option T) (line rest : List Nat)
    (hh : ∀ b ∈ line, b < 256) (hnl : 10 ∉ line) :
    read_line p (line ++ 10 :: rest) = some (lineResult p line, rest) :=
  read_line_frame p line rest hh hnl

/-- C8 witness: the scenario of the claim, input bytes 32 32 49 55 10 (two
spaces, the text 17, a newline) parse as the integer 17. -/
theorem read_line_spec_witness :
    read_line parseI32 [32, 32, 49, 55, 10] = some (Except.ok 17, []) :=
  read_line_spec parseI32 [32, 32, 49, 55] [] (by decide) (by decide)

/-- C9: the low-level transfers never produce an error value: whenever
read_until or read_n terminate they return ok, and write_vec returns ok on
every buffer, so the error branches their caller read provides for them are
unreachable. -/
theorem raw_transfer_never_err :
    (∀ (c : Nat) (input : List Nat) (res : Except IOError (List Nat)) (rem : List Nat),
        read_until c input = some (res, rem) → isOkE res = true)
    ∧ (∀ (n : Nat) (input : List Nat) (res : Except IOError (List Nat)) (rem : List Nat),
        read_n n input = some (res, rem) → isOkE res = true)
    ∧ (∀ v out : List Nat, (write_vec v out).1 = Except.ok ()) :=
  ⟨read_until_ok, read_n_ok, fun v out => by rw [write_vec_eq]⟩

/-- C9 witness: concrete terminating runs of the three operations are ok. -/
theorem raw_transfer_never_err_witness :
    isOkE (Except.ok ([5] : List Nat) : Except IOError (List Nat)) = true
    ∧ (write_vec [1] []).1 = Except.ok () :=
  ⟨raw_transfer_never_err.1 10 [5, 10] (Except.ok [5]) [] rfl,
   raw_transfer_never_err.2.2 [1] []⟩

/-- C10: every header line the usize text parser accepts makes read proceed to
read exactly that many body bytes and decode them, including headers write
never produces: digit strings with leading zeros and strings with a leading
plus sign are accepted, while the headers write emits never start with a plus
sign and start with the zero digit only for the empty body. -/
theorem read_header_leniency :
    (∀ (T : Type) (dec : List Nat → Option T) (line body rest : List Nat) (n : Nat),
        (∀ b ∈ line, b < 256) → 10 ∉ line → parseUsize line = some n →
        List.length body = n → (∀ b ∈ body, b < 256) →
        read dec (line ++ 10 :: (body ++ rest)) = some (bodyResult dec body, rest))
    ∧ parseUsize [48, 48, 55] = some 7
    ∧ parseUsize [43, 55] = some 7
    ∧ (∀ m : Nat, List.head? (decRepr m) ≠ some 43
        ∧ (m ≠ 0 → List.head? (decRepr m) ≠ some 48)) := by
  refine ⟨?_, rfl, rfl, ?_⟩
  · intro T dec line body rest n hh hnl hp hlen hb
    exact read_frame_eq dec line body rest n hh hnl hp hlen hb
  · intro m
    constructor
    · cases hrep : decRepr m with
      | nil => exact absurd hrep (decRepr_ne_nil m)
      | cons c t =>
        have hc : 48 ≤ c ∧ c ≤ 57 := by
          apply decRepr_mem m
          rw [hrep]
          exact List.mem_cons_self c t
        simp
        omega
    · intro hm
      obtain ⟨d, t, he, hd0, _⟩ := decRepr_head m hm
      rw [he]
      simp
      omega

/-- C10 witness: the header 004, which write never emits, is accepted and
exactly four body bytes are then consumed. -/
theorem read_header_leniency_witness :
    read decU32 [48, 48, 52, 10, 0, 0, 0, 42, 99] = some (Except.ok 42, [99])
    ∧ parseUsize [43, 55] = some 7 :=
  ⟨read_header_leniency.1 Nat decU32 [48, 48, 52] [0, 0, 0, 42] [99] 4
      (by decide) (by decide) rfl rfl (by decide),
   read_header_leniency.2.2.1⟩

end Tape
